import Mathlib

/-!
A shallow embedding of the cosmos/chainparse resolution pipeline
(src/chainparse.go) together with theorems checking the claims of the
natural-language specification against it.

Modelling conventions:
* Go strings are Lean `String`s; the byte-wise string operations of the
  source (suffix test, substring search, split, trim) are embedded as
  executable functions over `List Char` so that concrete instances
  evaluate inside the kernel.
* Network and filesystem effects are parameters: every remote
  interaction of the source is represented by an explicit outcome value
  (transport error / HTTP status / body parse result) that the embedded
  function consumes exactly the way the source consumes the real
  response.
* Go `(value, error)` returns become `Except String value`; a Go
  function that returns `(nil, nil)` (no record, no error) becomes
  `Except String (Option value)` returning `.ok none`.
-/

namespace Chainparse

/-- Pattern test: the first list is an initial segment of the second
(character-wise); building block for the substring and suffix tests. -/
def listStarts : List Char → List Char → Bool
  | [], _ => true
  | _ :: _, [] => false
  | a :: as, b :: bs => a == b && listStarts as bs

/-- Substring containment of `pat` inside the second list. -/
def listHasSub (pat : List Char) : List Char → Bool
  | [] => listStarts pat []
  | b :: bs => listStarts pat (b :: bs) || listHasSub pat bs

/-- `strContainsSub s pat`: `pat` occurs as a substring of `s`. -/
def strContainsSub (s pat : String) : Bool :=
  listHasSub pat.toList s.toList

/-- `hasSuffixStr s suf`: `s` ends with `suf`; models Go
`strings.HasSuffix` via reversed character lists. -/
def hasSuffixStr (s suf : String) : Bool :=
  listStarts suf.toList.reverse s.toList.reverse

/-- Models `reTargets.MatchString path` for
`var reTargets = regexp.MustCompile("cosmos-sdk|tendermint/tendermint|/ibc")`
(src/chainparse.go:605).  The pattern is an alternation of literal
substrings, so matching is substring search. -/
def reTargetsMatch (path : String) : Bool :=
  strContainsSub path "cosmos-sdk" ||
    strContainsSub path "tendermint/tendermint" ||
    strContainsSub path "/ibc"

/-- golang.org/x/mod `module.Version`: a module path plus version. -/
structure ModuleVersion where
  path : String
  version : String
deriving DecidableEq

/-- The slice of a parsed go.mod manifest that `extractCosmosTuples`
reads: the `require.Mod` entries and the `replace.New` entries
(src/chainparse.go:94-104 projects `modfile.File` to exactly these). -/
structure ModFile where
  require : List ModuleVersion
  replace : List ModuleVersion
deriving DecidableEq

/-- The `(cosmosSDKVers, tendermintVers, ibcVers)` result triple of the
extractor. -/
structure CosmosTuples where
  cosmosSDKVers : String
  tendermintVers : String
  ibcVers : String
deriving DecidableEq

/-- One loop iteration of `extractCosmosTuplesByVersion`
(src/chainparse.go:121-138): skip paths not matching `reTargets`, else
record `mod.Version + suffix` into the family selected by the
`switch` on the path suffix, where `suffix` is `"@" + mod.Path` for
replace directives and empty otherwise. -/
def tupleStep (isReplaceDirective : Bool) (acc : CosmosTuples) (m : ModuleVersion) :
    CosmosTuples :=
  if !reTargetsMatch m.path then acc
  else
    let suffix := if isReplaceDirective then "@" ++ m.path else ""
    if hasSuffixStr m.path "cosmos-sdk" then
      { acc with cosmosSDKVers := m.version ++ suffix }
    else if hasSuffixStr m.path "tendermint" then
      { acc with tendermintVers := m.version ++ suffix }
    else if hasSuffixStr m.path "ibc-go" then
      { acc with ibcVers := m.version ++ suffix }
    else acc

/-- `extractCosmosTuplesByVersion` (src/chainparse.go:118-140): fold the
per-module step over the list, starting from empty versions; a later
match overwrites an earlier one (last match wins). -/
def extractCosmosTuplesByVersion (modSrcs : List ModuleVersion)
    (isReplaceDirective : Bool) : CosmosTuples :=
  modSrcs.foldl (tupleStep isReplaceDirective) ⟨"", "", ""⟩

/-- `extractCosmosTuples` (src/chainparse.go:89-116): extract from the
require directives, then from the replace directives, and let every
non-empty replace-derived family version override the require-derived
one. -/
def extractCosmosTuples (modF : ModFile) : CosmosTuples :=
  let t := extractCosmosTuplesByVersion modF.require false
  let r := extractCosmosTuplesByVersion modF.replace true
  { cosmosSDKVers := if r.cosmosSDKVers ≠ "" then r.cosmosSDKVers else t.cosmosSDKVers,
    tendermintVers := if r.tendermintVers ≠ "" then r.tendermintVers else t.tendermintVers,
    ibcVers := if r.ibcVers ≠ "" then r.ibcVers else t.ibcVers }

/-- The module matches the framework (cosmos-sdk) family: the first
`switch` case of the extractor loop. -/
def isFrameworkMod (m : ModuleVersion) : Bool :=
  reTargetsMatch m.path && hasSuffixStr m.path "cosmos-sdk"

/-- The module matches the consensus (tendermint) family: the second
`switch` case, reached only when the first did not fire. -/
def isConsensusMod (m : ModuleVersion) : Bool :=
  reTargetsMatch m.path && !hasSuffixStr m.path "cosmos-sdk" &&
    hasSuffixStr m.path "tendermint"

/-- The module matches the interop (ibc-go) family: the third `switch`
case, reached only when the first two did not fire. -/
def isInteropMod (m : ModuleVersion) : Bool :=
  reTargetsMatch m.path && !hasSuffixStr m.path "cosmos-sdk" &&
    !hasSuffixStr m.path "tendermint" && hasSuffixStr m.path "ibc-go"

/-- `Codebase` (src/chainparse.go:32-36). -/
structure Codebase where
  gitRepoURL : String
  recommendedVersion : String
  compatibleVersions : List String
deriving DecidableEq

/-- The non-recursive fields of `ChainSchema` (src/chainparse.go:38-54),
in declaration order; the recursive `Latest *ChainSchema` pointer is
added by the `ChainSchema` wrapper below. -/
structure ChainData where
  chainName : String
  networkType : String
  status : String
  prettyName : String
  bech32Prefix : String
  codebase : Option Codebase
  accountManager : String
  isMainnet : String
  tendermintVersion : String
  cosmosSDKVersion : String
  ibcVersion : String
  contact : String
  accountManageer : String
deriving DecidableEq

/-- `ChainSchema`: Go's recursive `Latest *ChainSchema` pointer (nil or
set) is encoded by the two constructors, `leaf` for a nil `Latest` and
`node` for a set one.  Structural equality of this type is exactly
`reflect.DeepEqual` of the dereferenced Go structs. -/
inductive ChainSchema : Type where
  | leaf (core : ChainData)
  | node (core : ChainData) (latestCS : ChainSchema)
deriving DecidableEq

/-- Field block of a schema. -/
def ChainSchema.core : ChainSchema → ChainData
  | .leaf d => d
  | .node d _ => d

/-- The `Latest` pointer of a schema (none encodes Go nil). -/
def ChainSchema.latest : ChainSchema → Option ChainSchema
  | .leaf _ => none
  | .node _ l => some l

/-- Replace the non-recursive field block, keeping `Latest`. -/
def ChainSchema.withCore : ChainSchema → ChainData → ChainSchema
  | .leaf _, d => .leaf d
  | .node _ l, d => .node d l

/-- `cs.Latest = l`: set the `Latest` pointer. -/
def ChainSchema.withLatest : ChainSchema → ChainSchema → ChainSchema
  | .leaf d, l => .node d l
  | .node d _, l => .node d l

def ChainSchema.chainName (cs : ChainSchema) : String := cs.core.chainName

def ChainSchema.networkType (cs : ChainSchema) : String := cs.core.networkType

def ChainSchema.codebase (cs : ChainSchema) : Option Codebase := cs.core.codebase

def ChainSchema.isMainnet (cs : ChainSchema) : String := cs.core.isMainnet

/-- Outcome of reading and parsing the body of a manifest response:
`io.ReadAll` failure, `modfile.Parse` failure, or a parsed manifest. -/
inductive BodyParse : Type where
  | readError
  | parseError
  | modfile (mf : ModFile)
deriving DecidableEq

/-- Outcome of one manifest HTTP fetch: transport-level failure (request
construction or `client.Do`) or a response with a status code and a
body. -/
inductive ModFetchOutcome : Type where
  | transportError
  | response (status : Nat) (body : BodyParse)
deriving DecidableEq

/-- The fetched status code lies outside 200..299 (the source's
`modRes.StatusCode < 200 || modRes.StatusCode > 299` test). -/
def isNon2xx : ModFetchOutcome → Bool
  | .transportError => false
  | .response status _ => decide (status < 200) || decide (status > 299)

/-- `retrieveModFile` (src/chainparse.go:477-520): copy the seed schema,
fetch the go.mod URL, return `.ok none` on a non-2xx status (Go
`nil, nil`), propagate body-read and parse errors, and otherwise fill
the three extracted family versions and the mainnet flag derived from
the seed's network type. -/
def retrieveModFile (resp : ModFetchOutcome) (seed : ChainSchema) :
    Except String (Option ChainSchema) :=
  match resp with
  | .transportError => .error "transport error"
  | .response status body =>
    if status < 200 ∨ status > 299 then .ok none
    else
      match body with
      | .readError => .error "body read error"
      | .parseError => .error "go.mod parse error"
      | .modfile modF =>
        let t := extractCosmosTuples modF
        let d := seed.core
        let flag := if d.networkType ≠ "mainnet" then
            (if d.networkType = "" then "?" else "no")
          else "yes"
        .ok (some (seed.withCore { d with
          ibcVersion := t.ibcVers,
          tendermintVersion := t.tendermintVers,
          cosmosSDKVersion := t.cosmosSDKVers,
          isMainnet := flag }))

/-- The `csErr` pair passed over the two result channels of `run`
(src/chainparse.go:232-236); the `url` field is dropped as it is never
read by the merge. -/
structure CsErr where
  cs : Option ChainSchema
  err : Option String
deriving DecidableEq

/-- The merge tail of `run` (src/chainparse.go:306-336), also appearing
verbatim in `retrieveChainSchema` (src/chainparse.go:442-470): fail on a
face-value error, fail when the face-value fetch produced no schema, log
but ignore a latest error, and attach the latest schema as `Latest`
exactly when it exists and is not `reflect.DeepEqual` to the face-value
schema. -/
def runMerge (faceValueCSE lcse : CsErr) : Except String ChainSchema :=
  match faceValueCSE.err with
  | some e => .error e
  | none =>
    match faceValueCSE.cs with
    | none => .error "could not obtain the chainSchema"
    | some cs =>
      match lcse.cs with
      | some l => if cs ≠ l then .ok (cs.withLatest l) else .ok cs
      | none => .ok cs

/-- Per-project network environment of `run`: whether `url.Parse` of the
codebase repo URL succeeds, and the outcome of the face-value go.mod
fetch. -/
structure RunEnv where
  urlParseOk : Bool
  faceResp : ModFetchOutcome
deriving DecidableEq

/-- `run` (src/chainparse.go:238-336): fail on URL-parse failure, run
the face-value fetch, and merge.  The latest-fetch goroutine of `run`
returns immediately with `err = errors.New("skipping")` and a nil schema
(src/chainparse.go:287-288), so its channel value is the constant
`⟨none, some "skipping"⟩`. -/
def run (env : RunEnv) (seedCS : ChainSchema) : Except String ChainSchema :=
  if !env.urlParseOk then .error "url parse error"
  else
    let faceValueCSE :=
      match retrieveModFile env.faceResp seedCS with
      | .error e => CsErr.mk none (some e)
      | .ok cso => CsErr.mk cso none
    runMerge faceValueCSE (CsErr.mk none (some "skipping"))

/-- Lexicographic strict order on character lists by code point,
modelling Go's byte-wise string `<` (UTF-8 byte order and code-point
order agree). -/
def listLex : List Char → List Char → Bool
  | _, [] => false
  | [], _ :: _ => true
  | a :: as, b :: bs =>
    if a.toNat < b.toNat then true
    else if b.toNat < a.toNat then false
    else listLex as bs

/-- Go string `<`, used by both `sort.Slice` comparators of the
source. -/
def strLt (s t : String) : Bool := listLex s.toList t.toList

/-- Ordered insertion by chain name, the building block used to model
the source's `sort.Slice` by `csL[i].ChainName < csL[j].ChainName`
(src/chainparse.go:179-182 and 225-228). -/
def insertByName (x : ChainSchema) : List ChainSchema → List ChainSchema
  | [] => [x]
  | y :: ys =>
    if strLt x.chainName y.chainName then x :: y :: ys else y :: insertByName x ys

/-- Model of the chain-name sort: produces a permutation of its input
that is non-decreasing in `chainName`, which is the full contract of the
source's unstable `sort.Slice` call. -/
def sortByChainName (l : List ChainSchema) : List ChainSchema :=
  l.foldr insertByName []

/-- One walked descriptor (`chain.json`) file, after JSON decoding:
either malformed JSON or a parsed schema. -/
inductive Descriptor : Type where
  | malformed
  | parsed (cs : ChainSchema)
deriving DecidableEq

/-- The walk loop body of `findChainJSONFiles`
(src/chainparse.go:147-174): abort the whole walk on a JSON unmarshal
error; drop (log-only) schemas with no codebase; keep the rest in walk
order. -/
def scanFiles : List Descriptor → Except String (List ChainSchema)
  | [] => .ok []
  | .malformed :: _ => .error "json unmarshal error"
  | .parsed cs :: rest =>
    match scanFiles rest with
    | .error e => .error e
    | .ok tail => .ok (if cs.codebase.isSome then cs :: tail else tail)

/-- `findChainJSONFiles` (src/chainparse.go:142-185): walk the tree,
then sort the collected schemas by chain name. -/
def findChainJSONFiles (files : List Descriptor) : Except String (List ChainSchema) :=
  match scanFiles files with
  | .error e => .error e
  | .ok csL => .ok (sortByChainName csL)

/-- `traverse` (src/chainparse.go:187-230): scan the descriptor files,
run every input, keep exactly the runs with a nil error and a non-nil
schema, and sort the collected output by chain name.  The concurrent
fan-out delivers the successful records in an arbitrary completion
order; the order shown here is one of them, and the sortedness theorem
below is quantified over every permutation of it. -/
def traverse (env : ChainSchema → RunEnv) (files : List Descriptor) :
    Except String (List ChainSchema) :=
  match findChainJSONFiles files with
  | .error e => .error e
  | .ok inputs =>
    .ok (sortByChainName (inputs.filterMap fun cs => (run (env cs) cs).toOption))

/-- The fields of `github.Repository` the source reads:
`GetDefaultBranch` returns the field's value or the empty string when
the field is absent. -/
structure Repository where
  defaultBranch : Option String
deriving DecidableEq

def Repository.getDefaultBranch (r : Repository) : String :=
  r.defaultBranch.getD ""

/-- The shared `fetcher` state: the `repoCache` map, modelled as an
association list (first binding wins on lookup, insertion prepends). -/
structure FetcherState where
  repoCache : List (String × Repository)
deriving DecidableEq

/-- Map lookup in the cache. -/
def cacheLookup (key : String) : List (String × Repository) → Option Repository
  | [] => none
  | (k, v) :: rest => if k = key then some v else cacheLookup key rest

/-- Outcome of the repository-metadata API call: transport failure, or a
response with a status and a body whose JSON either unmarshals to a
repository or fails. -/
inductive APIOutcome : Type where
  | transportError
  | response (status : Nat) (body : Option Repository)
deriving DecidableEq

/-- `githubFetchDefaultBranchForRepo` (src/chainparse.go:563-603): on a
cache hit return the cached repository's default branch at once; on a
miss perform the API call, error on transport failure, non-2xx status
or unmarshal failure, and otherwise store the repository in the cache
under the key and return its default branch.  The mutex around each map
access is implicit in the sequential state threading. -/
def githubFetchDefaultBranchForRepo (api : APIOutcome) (orgRepo : String)
    (st : FetcherState) : Except String String × FetcherState :=
  match cacheLookup orgRepo st.repoCache with
  | some repo => (.ok repo.getDefaultBranch, st)
  | none =>
    match api with
    | .transportError => (.error "transport error", st)
    | .response status body =>
      if status < 200 ∨ status > 299 then (.error "non-2xx api response", st)
      else
        match body with
        | none => (.error "json unmarshal error", st)
        | some repo =>
          (.ok repo.getDefaultBranch, ⟨(orgRepo, repo) :: st.repoCache⟩)

/-- Go `unicode.IsSpace` restricted to the Latin-1 range it lists
explicitly; sufficient for the head-reference contents considered
here. -/
def isGoSpace (c : Char) : Bool :=
  c == ' ' || c == '\t' || c == '\n' || c == '\x0b' || c == '\x0c' || c == '\r' ||
    c == '\u0085' || c == '\u00A0'

/-- `strings.Split(s, ":")` on character lists: split at every colon. -/
def splitOnCh (c : Char) : List Char → List (List Char)
  | [] => [[]]
  | a :: as =>
    match splitOnCh c as with
    | [] => [[]]
    | r :: rs => if a == c then [] :: r :: rs else (a :: r) :: rs

/-- `s[strings.LastIndex(s, "/")+1:]`: the suffix after the last slash,
or the whole list when no slash occurs (`LastIndex` returns -1). -/
def afterLastSlash : List Char → List Char
  | [] => []
  | a :: as =>
    if as.contains '/' then afterLastSlash as
    else if a == '/' then as
    else a :: as

/-- `strings.TrimSpace` on character lists. -/
def trimSpaceL (l : List Char) : List Char :=
  ((l.dropWhile isGoSpace).reverse.dropWhile isGoSpace).reverse

/-- The head-reference parsing tail of `defaultBranchForRepo`
(src/chainparse.go:547-561): split the `.git/HEAD` contents on colons,
error unless that yields exactly two parts, then return the trimmed
suffix of the second part after its last slash. -/
def parseHeadRef (gitHEAD : String) : Except String String :=
  match splitOnCh ':' gitHEAD.toList with
  | [_, s1] => .ok (String.mk (trimSpaceL (afterLastSlash s1)))
  | _ => .error "could not split the .git/HEAD file"

@[simp]
theorem ChainSchema.core_withCore (cs : ChainSchema) (d : ChainData) :
    (cs.withCore d).core = d := by
  cases cs <;> rfl

@[simp]
theorem ChainSchema.latest_withCore (cs : ChainSchema) (d : ChainData) :
    (cs.withCore d).latest = cs.latest := by
  cases cs <;> rfl

@[simp]
theorem ChainSchema.core_withLatest (cs l : ChainSchema) :
    (cs.withLatest l).core = cs.core := by
  cases cs <;> rfl

@[simp]
theorem ChainSchema.latest_withLatest (cs l : ChainSchema) :
    (cs.withLatest l).latest = some l := by
  cases cs <;> rfl

theorem ChainSchema.chainName_withCore (cs : ChainSchema) (d : ChainData) :
    (cs.withCore d).chainName = d.chainName := by
  simp [ChainSchema.chainName]

theorem ChainSchema.chainName_withLatest (cs l : ChainSchema) :
    (cs.withLatest l).chainName = cs.chainName := by
  simp [ChainSchema.chainName]

theorem listLex_asymm (a : List Char) :
    ∀ b, listLex a b = true → listLex b a = false := by
  induction a with
  | nil => intro b; cases b <;> simp [listLex]
  | cons x xs ih =>
    intro b
    cases b with
    | nil => simp [listLex]
    | cons y ys =>
      simp only [listLex]
      by_cases h1 : x.toNat < y.toNat
      · rw [if_pos h1, if_neg (by omega), if_pos h1]
        intro
        rfl
      · rw [if_neg h1]
        by_cases h2 : y.toNat < x.toNat
        · rw [if_pos h2]
          intro hc
          exact absurd hc (by simp)
        · rw [if_neg h2, if_neg h2, if_neg h1]
          exact ih ys

theorem listLex_neg_trans (a : List Char) :
    ∀ b c, listLex b a = false → listLex c b = false → listLex c a = false := by
  induction a with
  | nil =>
    intro b c h1 h2
    cases c <;> rfl
  | cons x xs ih =>
    intro b c h1 h2
    cases b with
    | nil => simp [listLex] at h1
    | cons y ys =>
      cases c with
      | nil => simp [listLex] at h2
      | cons z zs =>
        simp only [listLex] at h1 h2 ⊢
        by_cases hyx : y.toNat < x.toNat
        · rw [if_pos hyx] at h1
          exact absurd h1 (by simp)
        · rw [if_neg hyx] at h1
          by_cases hzy : z.toNat < y.toNat
          · rw [if_pos hzy] at h2
            exact absurd h2 (by simp)
          · rw [if_neg hzy] at h2
            have hzx : ¬z.toNat < x.toNat := by omega
            rw [if_neg hzx]
            by_cases hxz : x.toNat < z.toNat
            · rw [if_pos hxz]
            · rw [if_neg hxz]
              have hxy : ¬x.toNat < y.toNat := by omega
              have hyz : ¬y.toNat < z.toNat := by omega
              rw [if_neg hxy] at h1
              rw [if_neg hyz] at h2
              exact ih ys zs h1 h2

theorem strLt_asymm (s t : String) (h : strLt s t = true) : strLt t s = false :=
  listLex_asymm s.toList t.toList h

theorem strLt_neg_trans (s t u : String) (h1 : strLt t s = false)
    (h2 : strLt u t = false) : strLt u s = false :=
  listLex_neg_trans s.toList t.toList u.toList h1 h2

theorem mem_insertByName (a x : ChainSchema) (l : List ChainSchema) :
    a ∈ insertByName x l ↔ a = x ∨ a ∈ l := by
  induction l with
  | nil => simp [insertByName]
  | cons y ys ih =>
    cases h : strLt x.chainName y.chainName with
    | true =>
      rw [insertByName, if_pos h]
      simp
    | false =>
      rw [insertByName, if_neg (by simp [h])]
      simp only [List.mem_cons, ih]
      tauto

theorem pairwise_insertByName (x : ChainSchema) (l : List ChainSchema)
    (h : l.Pairwise (fun a b => strLt b.chainName a.chainName = false)) :
    (insertByName x l).Pairwise (fun a b => strLt b.chainName a.chainName = false) := by
  induction l with
  | nil => simp [insertByName]
  | cons y ys ih =>
    rcases List.pairwise_cons.mp h with ⟨hy, hys⟩
    cases hlt : strLt x.chainName y.chainName with
    | true =>
      rw [insertByName, if_pos hlt]
      refine List.pairwise_cons.mpr ⟨?_, h⟩
      intro b hb
      rcases List.mem_cons.mp hb with rfl | hbys
      · exact strLt_asymm _ _ hlt
      · exact strLt_neg_trans _ _ _ (strLt_asymm _ _ hlt) (hy b hbys)
    | false =>
      rw [insertByName, if_neg (by simp [hlt])]
      refine List.pairwise_cons.mpr ⟨?_, ih hys⟩
      intro b hb
      rcases (mem_insertByName b x ys).mp hb with rfl | hbys
      · exact hlt
      · exact hy b hbys

theorem sorted_sortByChainName (l : List ChainSchema) :
    (sortByChainName l).Pairwise (fun a b => strLt b.chainName a.chainName = false) := by
  induction l with
  | nil => simp [sortByChainName]
  | cons x xs ih => exact pairwise_insertByName x (sortByChainName xs) ih

theorem mem_sortByChainName (a : ChainSchema) (l : List ChainSchema) :
    a ∈ sortByChainName l ↔ a ∈ l := by
  induction l with
  | nil => simp [sortByChainName]
  | cons x xs ih =>
    show a ∈ insertByName x (sortByChainName xs) ↔ _
    rw [mem_insertByName]
    simp [ih]

/-- C1: whenever both the face-value record and the latest record
resolve successfully (a schema with a nil error on each channel), the
merge tail of `run` attaches the latest record as the `Latest` field of
the face-value record exactly when the two are not structurally
identical, and when they are identical `Latest` stays absent (given
that, as for every record built from a registry descriptor, the
face-value record carries no `Latest` of its own). -/
theorem runMerge_latest_attach_iff (cs l : ChainSchema) (h : cs.latest = none) :
    runMerge ⟨some cs, none⟩ ⟨some l, none⟩ =
      .ok (if cs = l then cs else cs.withLatest l) ∧
    ((if cs = l then cs else cs.withLatest l).latest = some l ↔ cs ≠ l) ∧
    (cs = l → (if cs = l then cs else cs.withLatest l).latest = none) := by
  by_cases hcl : cs = l
  · subst hcl
    refine ⟨by simp [runMerge], ?_, fun _ => by simp [h]⟩
    simp [h]
  · refine ⟨by simp [runMerge, hcl], ?_, fun hc => absurd hc hcl⟩
    simp [hcl]

def sampleCore (name : String) : ChainData :=
  ⟨name, "mainnet", "live", name, name,
    some ⟨"https://github.com/o/r", "v1.0.0", ["v1.0.0"]⟩,
    "", "", "", "", "", "", ""⟩

theorem runMerge_latest_attach_iff_witness :
    runMerge ⟨some (.leaf (sampleCore "agoric")), none⟩
        ⟨some (.leaf (sampleCore "akash")), none⟩ =
      .ok (if ChainSchema.leaf (sampleCore "agoric") = .leaf (sampleCore "akash") then
          .leaf (sampleCore "agoric")
        else ChainSchema.withLatest (.leaf (sampleCore "agoric")) (.leaf (sampleCore "akash"))) ∧
    ((if ChainSchema.leaf (sampleCore "agoric") = .leaf (sampleCore "akash") then
          ChainSchema.leaf (sampleCore "agoric")
        else ChainSchema.withLatest (.leaf (sampleCore "agoric"))
          (.leaf (sampleCore "akash"))).latest = some (.leaf (sampleCore "akash")) ↔
      ChainSchema.leaf (sampleCore "agoric") ≠ .leaf (sampleCore "akash")) ∧
    (ChainSchema.leaf (sampleCore "agoric") = .leaf (sampleCore "akash") →
      (if ChainSchema.leaf (sampleCore "agoric") = .leaf (sampleCore "akash") then
          ChainSchema.leaf (sampleCore "agoric")
        else ChainSchema.withLatest (.leaf (sampleCore "agoric"))
          (.leaf (sampleCore "akash"))).latest = none) :=
  runMerge_latest_attach_iff (.leaf (sampleCore "agoric")) (.leaf (sampleCore "akash")) rfl

/-- C7: a record successfully produced by `retrieveModFile` carries
mainnet flag "yes" when the seed's network classification is "mainnet",
"no" when the classification is present but different, and "?" when the
classification is absent. -/
theorem mainnet_flag_classification (resp : ModFetchOutcome) (seed cs : ChainSchema)
    (h : retrieveModFile resp seed = .ok (some cs)) :
    (seed.networkType = "mainnet" → cs.isMainnet = "yes") ∧
    (seed.networkType ≠ "mainnet" → seed.networkType ≠ "" → cs.isMainnet = "no") ∧
    (seed.networkType = "" → cs.isMainnet = "?") := by
  cases resp with
  | transportError => simp [retrieveModFile] at h
  | response status body =>
    by_cases hs : status < 200 ∨ status > 299
    · simp [retrieveModFile, hs] at h
    · cases body with
      | readError => simp [retrieveModFile, hs] at h
      | parseError => simp [retrieveModFile, hs] at h
      | modfile modF =>
        simp only [retrieveModFile, if_neg hs, Except.ok.injEq, Option.some.injEq] at h
        subst h
        by_cases hm : seed.networkType = "mainnet"
        · refine ⟨fun _ => ?_, fun hc _ => absurd hm hc, fun he => ?_⟩
          · simp [ChainSchema.isMainnet, ChainSchema.networkType] at hm ⊢
            simp [hm]
          · rw [he] at hm
            simp at hm
        · have hm' : ¬seed.core.networkType = "mainnet" := hm
          by_cases he : seed.networkType = ""
          · refine ⟨fun hc => absurd hc hm, fun _ hc => absurd he hc, fun _ => ?_⟩
            have he' : seed.core.networkType = "" := he
            simp [ChainSchema.isMainnet, hm', he']
          · have he' : ¬seed.core.networkType = "" := he
            refine ⟨fun hc => absurd hc hm, fun _ _ => ?_, fun hc => absurd hc he⟩
            simp [ChainSchema.isMainnet, hm', he']

theorem mainnet_flag_classification_witness :
    (ChainSchema.networkType (.leaf (sampleCore "agoric")) = "mainnet" →
      ChainSchema.isMainnet
        (ChainSchema.withCore (.leaf (sampleCore "agoric"))
          { sampleCore "agoric" with
            ibcVersion := "", tendermintVersion := "", cosmosSDKVersion := "",
            isMainnet := "yes" }) = "yes") ∧
    (ChainSchema.networkType (.leaf (sampleCore "agoric")) ≠ "mainnet" →
      ChainSchema.networkType (.leaf (sampleCore "agoric")) ≠ "" →
      ChainSchema.isMainnet
        (ChainSchema.withCore (.leaf (sampleCore "agoric"))
          { sampleCore "agoric" with
            ibcVersion := "", tendermintVersion := "", cosmosSDKVersion := "",
            isMainnet := "yes" }) = "no") ∧
    (ChainSchema.networkType (.leaf (sampleCore "agoric")) = "" →
      ChainSchema.isMainnet
        (ChainSchema.withCore (.leaf (sampleCore "agoric"))
          { sampleCore "agoric" with
            ibcVersion := "", tendermintVersion := "", cosmosSDKVersion := "",
            isMainnet := "yes" }) = "?") :=
  mainnet_flag_classification (.response 200 (.modfile ⟨[], []⟩))
    (.leaf (sampleCore "agoric")) _ rfl

/-- C9: the cache-first API default-branch strategy returns the cached
branch on a hit with no dependence on the network outcome and no state
change; on a miss with a 2xx well-formed response it returns the parsed
default branch and stores the repository under the key, after which any
later lookup of that key (whatever its own network outcome) reuses the
stored entry unchanged. -/
theorem cache_first_default_branch :
    (∀ (api : APIOutcome) (orgRepo : String) (st : FetcherState) (repo : Repository),
      cacheLookup orgRepo st.repoCache = some repo →
      githubFetchDefaultBranchForRepo api orgRepo st = (.ok repo.getDefaultBranch, st)) ∧
    (∀ (orgRepo : String) (st : FetcherState) (status : Nat) (repo : Repository),
      cacheLookup orgRepo st.repoCache = none → 200 ≤ status → status ≤ 299 →
      githubFetchDefaultBranchForRepo (.response status (some repo)) orgRepo st =
        (.ok repo.getDefaultBranch, ⟨(orgRepo, repo) :: st.repoCache⟩) ∧
      (∀ api2 : APIOutcome,
        githubFetchDefaultBranchForRepo api2 orgRepo ⟨(orgRepo, repo) :: st.repoCache⟩ =
          (.ok repo.getDefaultBranch, ⟨(orgRepo, repo) :: st.repoCache⟩))) := by
  constructor
  · intro api orgRepo st repo h
    simp [githubFetchDefaultBranchForRepo, h]
  · intro orgRepo st status repo h h200 h299
    have hs : ¬(status < 200 ∨ status > 299) := by omega
    constructor
    · simp [githubFetchDefaultBranchForRepo, h, hs]
    · intro api2
      simp [githubFetchDefaultBranchForRepo, cacheLookup]

theorem cache_first_default_branch_witness :
    githubFetchDefaultBranchForRepo (.response 200 (some ⟨some "main"⟩)) "/c/r" ⟨[]⟩ =
      (.ok "main", ⟨[("/c/r", ⟨some "main"⟩)]⟩) ∧
    githubFetchDefaultBranchForRepo .transportError "/c/r" ⟨[("/c/r", ⟨some "main"⟩)]⟩ =
      (.ok "main", ⟨[("/c/r", ⟨some "main"⟩)]⟩) := by
  have h := cache_first_default_branch.2 "/c/r" ⟨[]⟩ 200 ⟨some "main"⟩ rfl
    (by decide) (by decide)
  exact ⟨h.1, h.2 .transportError⟩

theorem except_toOption_eq_some (e : Except String ChainSchema) (a : ChainSchema)
    (h : e.toOption = some a) : e = .ok a := by
  cases e with
  | error err => simp [Except.toOption] at h
  | ok b =>
    simp [Except.toOption] at h
    rw [h]

theorem scanFiles_ok_mem (files : List Descriptor) (l : List ChainSchema)
    (h : scanFiles files = .ok l) :
    ∀ cs ∈ l, Descriptor.parsed cs ∈ files ∧ cs.codebase.isSome = true := by
  induction files generalizing l with
  | nil =>
    simp only [scanFiles, Except.ok.injEq] at h
    subst h
    simp
  | cons d rest ih =>
    cases d with
    | malformed => simp [scanFiles] at h
    | parsed c =>
      simp only [scanFiles] at h
      cases hrest : scanFiles rest with
      | error e => rw [hrest] at h; simp at h
      | ok tail =>
        rw [hrest] at h
        simp only [Except.ok.injEq] at h
        subst h
        intro cs hcs
        by_cases hc : c.codebase.isSome
        · rw [if_pos hc] at hcs
          rcases List.mem_cons.mp hcs with rfl | htail
          · exact ⟨List.mem_cons_self _ _, hc⟩
          · obtain ⟨h1, h2⟩ := ih tail hrest cs htail
            exact ⟨List.mem_cons_of_mem _ h1, h2⟩
        · rw [if_neg hc] at hcs
          obtain ⟨h1, h2⟩ := ih tail hrest cs hcs
          exact ⟨List.mem_cons_of_mem _ h1, h2⟩

theorem scanFiles_ok_of_no_malformed (files : List Descriptor)
    (h : Descriptor.malformed ∉ files) : ∃ l, scanFiles files = .ok l := by
  induction files with
  | nil => exact ⟨[], rfl⟩
  | cons d rest ih =>
    cases d with
    | malformed => exact absurd (List.mem_cons_self _ _) h
    | parsed c =>
      obtain ⟨l, hl⟩ := ih (fun hm => h (List.mem_cons_of_mem _ hm))
      exact ⟨if c.codebase.isSome then c :: l else l, by simp [scanFiles, hl]⟩

theorem scanFiles_error_of_malformed (files : List Descriptor)
    (h : Descriptor.malformed ∈ files) :
    scanFiles files = .error "json unmarshal error" := by
  induction files with
  | nil => simp at h
  | cons d rest ih =>
    cases d with
    | malformed => rfl
    | parsed c =>
      have hm : Descriptor.malformed ∈ rest := by
        rcases List.mem_cons.mp h with h1 | h2
        · exact absurd h1 (by simp)
        · exact h2
      simp [scanFiles, ih hm]

theorem retrieveModFile_ok_chainName (resp : ModFetchOutcome) (seed cs : ChainSchema)
    (h : retrieveModFile resp seed = .ok (some cs)) : cs.chainName = seed.chainName := by
  cases resp with
  | transportError => simp [retrieveModFile] at h
  | response status body =>
    by_cases hs : status < 200 ∨ status > 299
    · simp [retrieveModFile, hs] at h
    · cases body with
      | readError => simp [retrieveModFile, hs] at h
      | parseError => simp [retrieveModFile, hs] at h
      | modfile modF =>
        simp only [retrieveModFile, if_neg hs, Except.ok.injEq, Option.some.injEq] at h
        subst h
        simp [ChainSchema.chainName]

theorem run_ok_chainName (env : RunEnv) (seed r : ChainSchema)
    (h : run env seed = .ok r) : r.chainName = seed.chainName := by
  unfold run at h
  cases henv : env.urlParseOk with
  | false => rw [henv] at h; simp at h
  | true =>
    rw [henv] at h
    simp only [Bool.not_true, Bool.false_eq_true, if_false] at h
    cases hface : retrieveModFile env.faceResp seed with
    | error e => rw [hface] at h; simp [runMerge] at h
    | ok cso =>
      rw [hface] at h
      cases cso with
      | none => simp [runMerge] at h
      | some cs =>
        simp only [runMerge, Except.ok.injEq] at h
        subst h
        exact retrieveModFile_ok_chainName env.faceResp seed cs hface

theorem run_face_non2xx_not_ok (env : RunEnv) (seed r : ChainSchema)
    (h : isNon2xx env.faceResp = true) : run env seed ≠ .ok r := by
  intro hc
  unfold run at hc
  cases henv : env.urlParseOk with
  | false => rw [henv] at hc; simp at hc
  | true =>
    rw [henv] at hc
    simp only [Bool.not_true, Bool.false_eq_true, if_false] at hc
    cases hresp : env.faceResp with
    | transportError => rw [hresp] at h; simp [isNon2xx] at h
    | response status body =>
      rw [hresp] at h
      have hs : status < 200 ∨ status > 299 := by
        simp [isNon2xx] at h
        omega
      have hmf : retrieveModFile (.response status body) seed = .ok none := by
        simp [retrieveModFile, hs]
      rw [hresp, hmf] at hc
      simp [runMerge] at hc

/-- C6: a malformed descriptor anywhere in the walked tree aborts the
registry scan (its partial result is discarded in favour of the error),
and the whole pipeline run fails with that same error propagated to the
caller. -/
theorem malformed_descriptor_aborts_run (files : List Descriptor)
    (env : ChainSchema → RunEnv) (h : Descriptor.malformed ∈ files) :
    findChainJSONFiles files = .error "json unmarshal error" ∧
    traverse env files = .error "json unmarshal error" := by
  constructor
  · simp [findChainJSONFiles, scanFiles_error_of_malformed files h]
  · simp [traverse, findChainJSONFiles, scanFiles_error_of_malformed files h]

theorem malformed_descriptor_aborts_run_witness :
    findChainJSONFiles [.parsed (.leaf (sampleCore "apple")), .malformed] =
      .error "json unmarshal error" ∧
    traverse (fun _ => ⟨true, .transportError⟩)
        [.parsed (.leaf (sampleCore "apple")), .malformed] =
      .error "json unmarshal error" :=
  malformed_descriptor_aborts_run _ _ (by decide)

/-- C4: a face-value manifest fetch that returns a non-2xx HTTP status
produces no record (`retrieveModFile` gives Go's `nil, nil`), the
per-project resolution then fails, and in the pipeline such a project is
entirely absent from the output while the batch itself still succeeds
(no error is returned for it). -/
theorem face_non2xx_project_dropped :
    (∀ (status : Nat) (body : BodyParse) (seed : ChainSchema),
      status < 200 ∨ status > 299 →
      retrieveModFile (.response status body) seed = .ok none) ∧
    (∀ (env : RunEnv) (seed r : ChainSchema),
      isNon2xx env.faceResp = true → run env seed ≠ .ok r) ∧
    (∀ (env : ChainSchema → RunEnv) (files : List Descriptor) (name : String),
      Descriptor.malformed ∉ files →
      (∀ cs : ChainSchema, Descriptor.parsed cs ∈ files → cs.chainName = name →
        isNon2xx (env cs).faceResp = true) →
      (∀ e, traverse env files ≠ .error e) ∧
      (∀ out, traverse env files = .ok out → ∀ r ∈ out, r.chainName ≠ name)) := by
  refine ⟨fun status body seed hs => by simp [retrieveModFile, hs],
    run_face_non2xx_not_ok, ?_⟩
  intro env files name hmal hface
  obtain ⟨l, hl⟩ := scanFiles_ok_of_no_malformed files hmal
  have htrav : traverse env files =
      .ok (sortByChainName ((sortByChainName l).filterMap
        fun cs => (run (env cs) cs).toOption)) := by
    simp [traverse, findChainJSONFiles, hl]
  constructor
  · intro e hc
    rw [htrav] at hc
    simp at hc
  · intro out hout r hr
    rw [htrav] at hout
    simp only [Except.ok.injEq] at hout
    subst hout
    rw [mem_sortByChainName] at hr
    obtain ⟨cs, hcs, hrun⟩ := List.mem_filterMap.mp hr
    rw [mem_sortByChainName] at hcs
    obtain ⟨hfile, _⟩ := scanFiles_ok_mem files l hl cs hcs
    have hok := except_toOption_eq_some _ _ hrun
    intro hname
    have hcn : cs.chainName = name := by
      rw [← run_ok_chainName (env cs) cs r hok, hname]
    exact run_face_non2xx_not_ok (env cs) cs r (hface cs hfile hcn) hok

theorem face_non2xx_project_dropped_witness :
    retrieveModFile (.response 404 .readError) (.leaf (sampleCore "apple")) = .ok none ∧
    run ⟨true, .response 404 .readError⟩ (.leaf (sampleCore "apple")) ≠
      .ok (.leaf (sampleCore "apple")) ∧
    traverse (fun _ => ⟨true, .response 404 .readError⟩)
        [.parsed (.leaf (sampleCore "apple"))] ≠ .error "x" ∧
    ∀ r ∈ ([] : List ChainSchema), r.chainName ≠ "apple" := by
  have h3 := face_non2xx_project_dropped.2.2 (fun _ => ⟨true, .response 404 .readError⟩)
    [.parsed (.leaf (sampleCore "apple"))] "apple" (by decide)
    (fun cs _ _ => rfl)
  exact ⟨face_non2xx_project_dropped.1 404 .readError _ (by decide),
    face_non2xx_project_dropped.2.1 ⟨true, .response 404 .readError⟩ _ _ rfl,
    h3.1 "x", h3.2 [] rfl⟩

/-- C5: a well-formed descriptor lacking a codebase reference is
excluded from the registry scanner's result list, the scan of the other
files still succeeds, and no record of that project (identified by its
chain name) ever appears in the pipeline output. -/
theorem missing_codebase_project_dropped (files : List Descriptor) (name : String)
    (hmal : Descriptor.malformed ∉ files)
    (hnc : ∀ cs : ChainSchema, Descriptor.parsed cs ∈ files → cs.chainName = name →
      cs.codebase = none) :
    (∀ e, findChainJSONFiles files ≠ .error e) ∧
    (∀ inputs, findChainJSONFiles files = .ok inputs →
      ∀ cs ∈ inputs, cs.codebase.isSome = true ∧ cs.chainName ≠ name) ∧
    (∀ (env : ChainSchema → RunEnv) (out : List ChainSchema),
      traverse env files = .ok out → ∀ r ∈ out, r.chainName ≠ name) := by
  obtain ⟨l, hl⟩ := scanFiles_ok_of_no_malformed files hmal
  have hfind : findChainJSONFiles files = .ok (sortByChainName l) := by
    simp [findChainJSONFiles, hl]
  have hmem : ∀ cs ∈ sortByChainName l, cs.codebase.isSome = true ∧ cs.chainName ≠ name := by
    intro cs hcs
    rw [mem_sortByChainName] at hcs
    obtain ⟨hfile, hsome⟩ := scanFiles_ok_mem files l hl cs hcs
    refine ⟨hsome, fun hcn => ?_⟩
    rw [hnc cs hfile hcn] at hsome
    simp at hsome
  refine ⟨fun e hc => by rw [hfind] at hc; simp at hc, ?_, ?_⟩
  · intro inputs hin
    rw [hfind] at hin
    simp only [Except.ok.injEq] at hin
    subst hin
    exact hmem
  · intro env out hout r hr
    simp only [traverse, hfind] at hout
    simp only [Except.ok.injEq] at hout
    subst hout
    rw [mem_sortByChainName] at hr
    obtain ⟨cs, hcs, hrun⟩ := List.mem_filterMap.mp hr
    have hok := except_toOption_eq_some _ _ hrun
    intro hname
    have hcn : cs.chainName = name := by
      rw [← run_ok_chainName (env cs) cs r hok, hname]
    exact (hmem cs hcs).2 hcn

theorem missing_codebase_project_dropped_witness :
    findChainJSONFiles
        [.parsed (.leaf { sampleCore "apple" with codebase := none }),
          .parsed (.leaf (sampleCore "banana"))] ≠ .error "x" ∧
    (∀ cs ∈ [ChainSchema.leaf (sampleCore "banana")],
      cs.codebase.isSome = true ∧ cs.chainName ≠ "apple") ∧
    ∀ r ∈ ([] : List ChainSchema), r.chainName ≠ "apple" := by
  have h := missing_codebase_project_dropped
    [.parsed (.leaf { sampleCore "apple" with codebase := none }),
      .parsed (.leaf (sampleCore "banana"))] "apple" (by decide)
    (by
      intro cs hcs hname
      rcases List.mem_cons.mp hcs with h1 | h2
      · cases h1
        rfl
      · rcases List.mem_cons.mp h2 with h3 | h4
        · cases h3
          exact absurd hname (by decide)
        · simp at h4)
  exact ⟨h.1 "x", h.2.1 [ChainSchema.leaf (sampleCore "banana")] rfl,
    h.2.2 (fun _ => ⟨true, .transportError⟩) [] rfl⟩

/-- C3: however the concurrent per-project resolutions complete (any
permutation of the successful run results), the list the orchestrator
returns is sorted by chain name in ascending lexicographic order. -/
theorem traverse_output_sorted (env : ChainSchema → RunEnv) (files : List Descriptor)
    (inputs collected : List ChainSchema)
    (hin : findChainJSONFiles files = .ok inputs)
    (hperm : collected.Perm (inputs.filterMap fun cs => (run (env cs) cs).toOption)) :
    (sortByChainName collected).Pairwise
      (fun a b => strLt b.chainName a.chainName = false) ∧
    ∀ out, traverse env files = .ok out →
      out.Pairwise (fun a b => strLt b.chainName a.chainName = false) := by
  refine ⟨sorted_sortByChainName collected, fun out hout => ?_⟩
  simp only [traverse, hin, Except.ok.injEq] at hout
  subst hout
  exact sorted_sortByChainName _

def witFiles : List Descriptor :=
  [.parsed (.leaf (sampleCore "banana")), .parsed (.leaf (sampleCore "apple"))]

def witEnv : ChainSchema → RunEnv :=
  fun _ => ⟨true, .response 200 (.modfile ⟨[], []⟩)⟩

def witInputs : List ChainSchema :=
  [.leaf (sampleCore "apple"), .leaf (sampleCore "banana")]

def witCollected : List ChainSchema :=
  witInputs.filterMap fun cs => (run (witEnv cs) cs).toOption

theorem traverse_output_sorted_witness :
    (sortByChainName witCollected).Pairwise
      (fun a b : ChainSchema => strLt b.chainName a.chainName = false) ∧
    ∀ out, traverse witEnv witFiles = .ok out →
      out.Pairwise (fun a b : ChainSchema => strLt b.chainName a.chainName = false) :=
  traverse_output_sorted witEnv witFiles witInputs witCollected rfl (List.Perm.refl _)

theorem tupleStep_sdk_of_not_framework (rep : Bool) (acc : CosmosTuples)
    (m : ModuleVersion) (h : isFrameworkMod m = false) :
    (tupleStep rep acc m).cosmosSDKVers = acc.cosmosSDKVers := by
  unfold tupleStep
  split_ifs with h1 h2 h3 h4 <;> simp_all [isFrameworkMod]

theorem tupleStep_tm_of_not_consensus (rep : Bool) (acc : CosmosTuples)
    (m : ModuleVersion) (h : isConsensusMod m = false) :
    (tupleStep rep acc m).tendermintVers = acc.tendermintVers := by
  unfold tupleStep
  split_ifs with h1 h2 h3 h4 <;> simp_all [isConsensusMod]

theorem tupleStep_ibc_of_not_interop (rep : Bool) (acc : CosmosTuples)
    (m : ModuleVersion) (h : isInteropMod m = false) :
    (tupleStep rep acc m).ibcVers = acc.ibcVers := by
  unfold tupleStep
  split_ifs with h1 h2 h3 h4 <;> simp_all [isInteropMod]

theorem tupleStep_sdk_of_framework (rep : Bool) (acc : CosmosTuples)
    (m : ModuleVersion) (h : isFrameworkMod m = true) :
    (tupleStep rep acc m).cosmosSDKVers =
      m.version ++ (if rep then "@" ++ m.path else "") := by
  simp only [isFrameworkMod, Bool.and_eq_true] at h
  obtain ⟨h1, h2⟩ := h
  simp [tupleStep, h1, h2]

theorem tupleStep_tm_of_consensus (rep : Bool) (acc : CosmosTuples)
    (m : ModuleVersion) (h : isConsensusMod m = true) :
    (tupleStep rep acc m).tendermintVers =
      m.version ++ (if rep then "@" ++ m.path else "") := by
  simp only [isConsensusMod, Bool.and_eq_true, Bool.not_eq_true'] at h
  obtain ⟨⟨h1, h2⟩, h3⟩ := h
  simp [tupleStep, h1, h2, h3]

theorem tupleStep_ibc_of_interop (rep : Bool) (acc : CosmosTuples)
    (m : ModuleVersion) (h : isInteropMod m = true) :
    (tupleStep rep acc m).ibcVers =
      m.version ++ (if rep then "@" ++ m.path else "") := by
  simp only [isInteropMod, Bool.and_eq_true, Bool.not_eq_true'] at h
  obtain ⟨⟨⟨h1, h2⟩, h3⟩, h4⟩ := h
  simp [tupleStep, h1, h2, h3, h4]

theorem foldl_sdk_noop (rep : Bool) (l : List ModuleVersion) (acc : CosmosTuples)
    (h : ∀ m ∈ l, isFrameworkMod m = false) :
    (l.foldl (tupleStep rep) acc).cosmosSDKVers = acc.cosmosSDKVers := by
  induction l generalizing acc with
  | nil => rfl
  | cons m rest ih =>
    rw [List.foldl_cons, ih _ (fun x hx => h x (List.mem_cons_of_mem _ hx))]
    exact tupleStep_sdk_of_not_framework rep acc m (h m (List.mem_cons_self _ _))

theorem foldl_tm_noop (rep : Bool) (l : List ModuleVersion) (acc : CosmosTuples)
    (h : ∀ m ∈ l, isConsensusMod m = false) :
    (l.foldl (tupleStep rep) acc).tendermintVers = acc.tendermintVers := by
  induction l generalizing acc with
  | nil => rfl
  | cons m rest ih =>
    rw [List.foldl_cons, ih _ (fun x hx => h x (List.mem_cons_of_mem _ hx))]
    exact tupleStep_tm_of_not_consensus rep acc m (h m (List.mem_cons_self _ _))

theorem foldl_ibc_noop (rep : Bool) (l : List ModuleVersion) (acc : CosmosTuples)
    (h : ∀ m ∈ l, isInteropMod m = false) :
    (l.foldl (tupleStep rep) acc).ibcVers = acc.ibcVers := by
  induction l generalizing acc with
  | nil => rfl
  | cons m rest ih =>
    rw [List.foldl_cons, ih _ (fun x hx => h x (List.mem_cons_of_mem _ hx))]
    exact tupleStep_ibc_of_not_interop rep acc m (h m (List.mem_cons_self _ _))

theorem foldl_sdk_last (rep : Bool) (l1 l2 : List ModuleVersion) (mr : ModuleVersion)
    (acc : CosmosTuples) (hm : isFrameworkMod mr = true)
    (hl2 : ∀ m ∈ l2, isFrameworkMod m = false) :
    ((l1 ++ mr :: l2).foldl (tupleStep rep) acc).cosmosSDKVers =
      mr.version ++ (if rep then "@" ++ mr.path else "") := by
  rw [List.foldl_append, List.foldl_cons, foldl_sdk_noop rep l2 _ hl2]
  exact tupleStep_sdk_of_framework rep _ mr hm

theorem foldl_tm_last (rep : Bool) (l1 l2 : List ModuleVersion) (mr : ModuleVersion)
    (acc : CosmosTuples) (hm : isConsensusMod mr = true)
    (hl2 : ∀ m ∈ l2, isConsensusMod m = false) :
    ((l1 ++ mr :: l2).foldl (tupleStep rep) acc).tendermintVers =
      mr.version ++ (if rep then "@" ++ mr.path else "") := by
  rw [List.foldl_append, List.foldl_cons, foldl_tm_noop rep l2 _ hl2]
  exact tupleStep_tm_of_consensus rep _ mr hm

theorem foldl_ibc_last (rep : Bool) (l1 l2 : List ModuleVersion) (mr : ModuleVersion)
    (acc : CosmosTuples) (hm : isInteropMod mr = true)
    (hl2 : ∀ m ∈ l2, isInteropMod m = false) :
    ((l1 ++ mr :: l2).foldl (tupleStep rep) acc).ibcVers =
      mr.version ++ (if rep then "@" ++ mr.path else "") := by
  rw [List.foldl_append, List.foldl_cons, foldl_ibc_noop rep l2 _ hl2]
  exact tupleStep_ibc_of_interop rep _ mr hm

theorem at_suffix_ne_empty (v p : String) : v ++ "@" ++ p ≠ "" := by
  intro h
  have hlen := congrArg String.length h
  rw [String.length_append, String.length_append] at hlen
  have h1 : ("@" : String).length = 1 := rfl
  have h2 : ("" : String).length = 0 := rfl
  omega

/-- C2: whenever the override (replace) directives contain a pair for a
dependency family (with no later matching override, i.e. the pair that
the last-match-wins loop retains), the extracted version of that family
is the override pair's version with the `"@" + path` provenance suffix;
in particular it overrides the version X contributed by any matching
direct requirement, and differs from X as long as X is not itself that
suffixed string (requirement versions never contain `"@"`).  The same
precedence holds for the framework, consensus and interop families. -/
theorem override_precedence :
    (∀ (modF : ModFile) (l1 l2 : List ModuleVersion) (mr mq : ModuleVersion) (X : String),
      modF.replace = l1 ++ mr :: l2 → isFrameworkMod mr = true →
      (∀ m ∈ l2, isFrameworkMod m = false) →
      mq ∈ modF.require → isFrameworkMod mq = true → mq.version = X →
      X ≠ mr.version ++ "@" ++ mr.path →
      (extractCosmosTuples modF).cosmosSDKVers = mr.version ++ "@" ++ mr.path ∧
      (extractCosmosTuples modF).cosmosSDKVers ≠ X) ∧
    (∀ (modF : ModFile) (l1 l2 : List ModuleVersion) (mr mq : ModuleVersion) (X : String),
      modF.replace = l1 ++ mr :: l2 → isConsensusMod mr = true →
      (∀ m ∈ l2, isConsensusMod m = false) →
      mq ∈ modF.require → isConsensusMod mq = true → mq.version = X →
      X ≠ mr.version ++ "@" ++ mr.path →
      (extractCosmosTuples modF).tendermintVers = mr.version ++ "@" ++ mr.path ∧
      (extractCosmosTuples modF).tendermintVers ≠ X) ∧
    (∀ (modF : ModFile) (l1 l2 : List ModuleVersion) (mr mq : ModuleVersion) (X : String),
      modF.replace = l1 ++ mr :: l2 → isInteropMod mr = true →
      (∀ m ∈ l2, isInteropMod m = false) →
      mq ∈ modF.require → isInteropMod mq = true → mq.version = X →
      X ≠ mr.version ++ "@" ++ mr.path →
      (extractCosmosTuples modF).ibcVers = mr.version ++ "@" ++ mr.path ∧
      (extractCosmosTuples modF).ibcVers ≠ X) := by
  refine ⟨?_, ?_, ?_⟩
  · intro modF l1 l2 mr mq X hrep hm hl2 hmq hmqf hmqv hX
    have hr : (extractCosmosTuplesByVersion modF.replace true).cosmosSDKVers =
        mr.version ++ "@" ++ mr.path := by
      rw [hrep]
      unfold extractCosmosTuplesByVersion
      rw [foldl_sdk_last true l1 l2 mr _ hm hl2]
      simp [String.append_assoc]
    have hmain : (extractCosmosTuples modF).cosmosSDKVers =
        mr.version ++ "@" ++ mr.path := by
      simp only [extractCosmosTuples]
      rw [hr, if_pos (at_suffix_ne_empty mr.version mr.path)]
    exact ⟨hmain, fun hc => hX (by rw [← hc, hmain])⟩
  · intro modF l1 l2 mr mq X hrep hm hl2 hmq hmqf hmqv hX
    have hr : (extractCosmosTuplesByVersion modF.replace true).tendermintVers =
        mr.version ++ "@" ++ mr.path := by
      rw [hrep]
      unfold extractCosmosTuplesByVersion
      rw [foldl_tm_last true l1 l2 mr _ hm hl2]
      simp [String.append_assoc]
    have hmain : (extractCosmosTuples modF).tendermintVers =
        mr.version ++ "@" ++ mr.path := by
      simp only [extractCosmosTuples]
      rw [hr, if_pos (at_suffix_ne_empty mr.version mr.path)]
    exact ⟨hmain, fun hc => hX (by rw [← hc, hmain])⟩
  · intro modF l1 l2 mr mq X hrep hm hl2 hmq hmqf hmqv hX
    have hr : (extractCosmosTuplesByVersion modF.replace true).ibcVers =
        mr.version ++ "@" ++ mr.path := by
      rw [hrep]
      unfold extractCosmosTuplesByVersion
      rw [foldl_ibc_last true l1 l2 mr _ hm hl2]
      simp [String.append_assoc]
    have hmain : (extractCosmosTuples modF).ibcVers =
        mr.version ++ "@" ++ mr.path := by
      simp only [extractCosmosTuples]
      rw [hr, if_pos (at_suffix_ne_empty mr.version mr.path)]
    exact ⟨hmain, fun hc => hX (by rw [← hc, hmain])⟩

def witModFile : ModFile :=
  ⟨[⟨"github.com/cosmos/cosmos-sdk", "v0.44.1"⟩,
      ⟨"github.com/tendermint/tendermint", "v0.34.13"⟩,
      ⟨"github.com/cosmos/ibc-go", "v1.2.0"⟩],
    [⟨"github.com/forked/cosmos-sdk", "v0.44.9"⟩,
      ⟨"github.com/tendermint/tendermint", "v0.34.99"⟩,
      ⟨"github.com/forked/ibc-go", "v1.9.9"⟩]⟩

theorem override_precedence_witness :
    (extractCosmosTuples witModFile).cosmosSDKVers =
      "v0.44.9" ++ "@" ++ "github.com/forked/cosmos-sdk" ∧
    (extractCosmosTuples witModFile).cosmosSDKVers ≠ "v0.44.1" ∧
    (extractCosmosTuples witModFile).tendermintVers =
      "v0.34.99" ++ "@" ++ "github.com/tendermint/tendermint" ∧
    (extractCosmosTuples witModFile).tendermintVers ≠ "v0.34.13" ∧
    (extractCosmosTuples witModFile).ibcVers =
      "v1.9.9" ++ "@" ++ "github.com/forked/ibc-go" ∧
    (extractCosmosTuples witModFile).ibcVers ≠ "v1.2.0" := by
  have h1 := override_precedence.1 witModFile []
    [⟨"github.com/tendermint/tendermint", "v0.34.99"⟩, ⟨"github.com/forked/ibc-go", "v1.9.9"⟩]
    ⟨"github.com/forked/cosmos-sdk", "v0.44.9"⟩
    ⟨"github.com/cosmos/cosmos-sdk", "v0.44.1"⟩ "v0.44.1"
    rfl (by decide) (by decide) (by decide) (by decide) rfl (by decide)
  have h2 := override_precedence.2.1 witModFile
    [⟨"github.com/forked/cosmos-sdk", "v0.44.9"⟩]
    [⟨"github.com/forked/ibc-go", "v1.9.9"⟩]
    ⟨"github.com/tendermint/tendermint", "v0.34.99"⟩
    ⟨"github.com/tendermint/tendermint", "v0.34.13"⟩ "v0.34.13"
    rfl (by decide) (by decide) (by decide) (by decide) rfl (by decide)
  have h3 := override_precedence.2.2 witModFile
    [⟨"github.com/forked/cosmos-sdk", "v0.44.9"⟩,
      ⟨"github.com/tendermint/tendermint", "v0.34.99"⟩] []
    ⟨"github.com/forked/ibc-go", "v1.9.9"⟩
    ⟨"github.com/cosmos/ibc-go", "v1.2.0"⟩ "v1.2.0"
    rfl (by decide) (by decide) (by decide) (by decide) rfl (by decide)
  exact ⟨h1.1, h1.2, h2.1, h2.2, h3.1, h3.2⟩

theorem tupleStep_noop (rep : Bool) (acc : CosmosTuples) (m : ModuleVersion)
    (h : reTargetsMatch m.path = true →
      hasSuffixStr m.path "cosmos-sdk" = false ∧ hasSuffixStr m.path "tendermint" = false ∧
        hasSuffixStr m.path "ibc-go" = false) :
    tupleStep rep acc m = acc := by
  unfold tupleStep
  cases hr : reTargetsMatch m.path with
  | false => simp
  | true =>
    obtain ⟨h1, h2, h3⟩ := h hr
    simp [h1, h2, h3]

theorem foldl_tupleStep_noop (rep : Bool) (l : List ModuleVersion) (acc : CosmosTuples)
    (h : ∀ m ∈ l, reTargetsMatch m.path = true →
      hasSuffixStr m.path "cosmos-sdk" = false ∧ hasSuffixStr m.path "tendermint" = false ∧
        hasSuffixStr m.path "ibc-go" = false) :
    l.foldl (tupleStep rep) acc = acc := by
  induction l with
  | nil => rfl
  | cons m rest ih =>
    rw [List.foldl_cons, tupleStep_noop rep acc m (h m (List.mem_cons_self _ _))]
    exact ih (fun x hx => h x (List.mem_cons_of_mem _ hx))

/-- C10: a module path that matches the family-detection pattern but
ends with none of the suffixes "cosmos-sdk", "tendermint", "ibc-go"
falls through the extractor's `switch` and records nothing; a manifest
all of whose pattern-matching paths lack these suffixes therefore yields
all three family versions empty.  (The source's second and third
`switch` cases use the suffixes "tendermint" and "ibc-go", so the
claim's suffix list "cosmos-sdk", "tendermint", "ibc-go" is read with
"tendermint" for the consensus case.) -/
theorem unsuffixed_matches_record_nothing (modF : ModFile)
    (h : ∀ m ∈ modF.require ++ modF.replace, reTargetsMatch m.path = true →
      hasSuffixStr m.path "cosmos-sdk" = false ∧ hasSuffixStr m.path "tendermint" = false ∧
        hasSuffixStr m.path "ibc-go" = false) :
    extractCosmosTuples modF = ⟨"", "", ""⟩ := by
  have hreq : extractCosmosTuplesByVersion modF.require false = ⟨"", "", ""⟩ :=
    foldl_tupleStep_noop false modF.require ⟨"", "", ""⟩
      (fun m hm => h m (List.mem_append_left _ hm))
  have hrep : extractCosmosTuplesByVersion modF.replace true = ⟨"", "", ""⟩ :=
    foldl_tupleStep_noop true modF.replace ⟨"", "", ""⟩
      (fun m hm => h m (List.mem_append_right _ hm))
  simp [extractCosmosTuples, hreq, hrep]

theorem unsuffixed_matches_record_nothing_witness :
    extractCosmosTuples
      ⟨[⟨"github.com/cosmos/cosmos-sdk-utils", "v1.0.0"⟩, ⟨"github.com/me/ibc", "v2.0.0"⟩],
        [⟨"github.com/tendermint/tendermint/abci", "v3.0.0"⟩]⟩ = ⟨"", "", ""⟩ :=
  unsuffixed_matches_record_nothing
    ⟨[⟨"github.com/cosmos/cosmos-sdk-utils", "v1.0.0"⟩, ⟨"github.com/me/ibc", "v2.0.0"⟩],
      [⟨"github.com/tendermint/tendermint/abci", "v3.0.0"⟩]⟩
    (by decide)

theorem splitOnCh_ne_nil (c : Char) (l : List Char) : splitOnCh c l ≠ [] := by
  cases l with
  | nil => simp [splitOnCh]
  | cons a as =>
    simp only [splitOnCh]
    cases h : splitOnCh c as with
    | nil => simp
    | cons r rs => by_cases hac : a == c <;> simp [hac]

theorem splitOnCh_of_not_mem (c : Char) (l : List Char) (h : c ∉ l) :
    splitOnCh c l = [l] := by
  induction l with
  | nil => rfl
  | cons a as ih =>
    have hne : a ≠ c := fun hac => h (hac ▸ List.mem_cons_self a as)
    have hrec := ih (fun hm => h (List.mem_cons_of_mem _ hm))
    simp only [splitOnCh, hrec]
    simp [hne]

theorem splitOnCh_append (c : Char) (p r : List Char) (hp : c ∉ p) :
    splitOnCh c (p ++ c :: r) = p :: splitOnCh c r := by
  induction p with
  | nil =>
    simp only [List.nil_append, splitOnCh]
    cases h : splitOnCh c r with
    | nil => exact absurd h (splitOnCh_ne_nil c r)
    | cons x xs => simp
  | cons b bs ih =>
    have hb : b ≠ c := fun hbc => hp (hbc ▸ List.mem_cons_self b bs)
    have hrec := ih (fun hm => hp (List.mem_cons_of_mem _ hm))
    show splitOnCh c (b :: (bs ++ c :: r)) = (b :: bs) :: splitOnCh c r
    simp only [splitOnCh]
    rw [hrec]
    simp [hb]

theorem afterLastSlash_append (p sfx : List Char) (h : ('/' : Char) ∉ sfx) :
    afterLastSlash (p ++ '/' :: sfx) = sfx := by
  induction p with
  | nil =>
    have hc : sfx.contains '/' = false := by
      cases hcc : sfx.contains '/' with
      | false => rfl
      | true =>
        rw [List.contains_iff_exists_mem_beq] at hcc
        obtain ⟨x, hx, hbeq⟩ := hcc
        rw [beq_iff_eq] at hbeq
        exact absurd (hbeq ▸ hx) h
    show afterLastSlash ('/' :: sfx) = sfx
    simp only [afterLastSlash, hc]
    simp
  | cons b bs ih =>
    have hc : (bs ++ '/' :: sfx).contains '/' = true := by
      rw [List.contains_iff_exists_mem_beq]
      exact ⟨'/', List.mem_append_right _ (List.mem_cons_self _ _), by simp⟩
    show afterLastSlash (b :: (bs ++ '/' :: sfx)) = sfx
    simp only [afterLastSlash, hc]
    simpa using ih

theorem dropWhile_eq_self_of_all_false (p : Char → Bool) (l : List Char)
    (h : ∀ c ∈ l, p c = false) : l.dropWhile p = l := by
  cases l with
  | nil => rfl
  | cons a as => simp [List.dropWhile, h a (List.mem_cons_self a as)]

theorem trimSpaceL_eq_self (l : List Char) (h : ∀ c ∈ l, isGoSpace c = false) :
    trimSpaceL l = l := by
  unfold trimSpaceL
  rw [dropWhile_eq_self_of_all_false _ _ h,
    dropWhile_eq_self_of_all_false _ _ (fun c hc => h c (List.mem_reverse.mp hc))]
  exact List.reverse_reverse l

/-- C8 counterexample: the head-reference file
`ref: refs/heads/feature/x` has the stated `ref: refs/heads/<name>` form
with branch name `feature/x`, yet the resolver returns only the last
path segment `x`, not `feature/x`. -/
theorem headRef_slash_counterexample :
    parseHeadRef "ref: refs/heads/feature/x" = .ok "x" ∧
    parseHeadRef "ref: refs/heads/feature/x" ≠ .ok "feature/x" := by
  have h1 : parseHeadRef "ref: refs/heads/feature/x" = .ok "x" := rfl
  refine ⟨h1, fun hc => ?_⟩
  rw [h1] at hc
  have h2 := Except.ok.inj hc
  exact absurd h2 (by decide)

/-- C8 (amended): for a head-reference file of the form
`ref: refs/heads/<name>` the resolver returns the portion of `<name>`
after its last slash — hence exactly `<name>` whenever `<name>` contains
no slash (nor colon or whitespace, which the split and trim would
consume); and any contents that do not split at colons into exactly two
parts yield an error. -/
theorem headRef_parse_amended :
    (∀ nm : List Char,
      (∀ c ∈ nm, c ≠ ':' ∧ c ≠ '/' ∧ isGoSpace c = false) →
      parseHeadRef (String.mk (("ref: refs/heads/").toList ++ nm)) = .ok (String.mk nm)) ∧
    (∀ g : String, (splitOnCh ':' g.toList).length ≠ 2 →
      parseHeadRef g = .error "could not split the .git/HEAD file") := by
  constructor
  · intro nm hnm
    have hmem2 : (':' : Char) ∉ (" refs/heads/").toList ++ nm := by
      intro hm
      rcases List.mem_append.mp hm with hpre | hin
      · exact absurd hpre (by decide)
      · exact (hnm ':' hin).1 rfl
    have hsplit : splitOnCh ':' (("ref: refs/heads/").toList ++ nm) =
        [("ref").toList, (" refs/heads/").toList ++ nm] := by
      have hshape : ("ref: refs/heads/").toList ++ nm =
          ("ref").toList ++ ':' :: ((" refs/heads/").toList ++ nm) := rfl
      rw [hshape, splitOnCh_append ':' _ _ (by decide),
        splitOnCh_of_not_mem ':' _ hmem2]
    have hslash : afterLastSlash ((" refs/heads/").toList ++ nm) = nm := by
      have hshape : (" refs/heads/").toList ++ nm =
          (" refs/heads").toList ++ '/' :: nm := rfl
      rw [hshape]
      exact afterLastSlash_append _ _ (fun hm => (hnm '/' hm).2.1 rfl)
    show (match splitOnCh ':' (("ref: refs/heads/").toList ++ nm) with
      | [_, s1] => Except.ok (String.mk (trimSpaceL (afterLastSlash s1)))
      | _ => Except.error "could not split the .git/HEAD file") = .ok (String.mk nm)
    rw [hsplit]
    show Except.ok (String.mk (trimSpaceL
      (afterLastSlash ((" refs/heads/").toList ++ nm)))) = .ok (String.mk nm)
    rw [hslash, trimSpaceL_eq_self nm (fun c hc => (hnm c hc).2.2)]
  · intro g hg
    unfold parseHeadRef
    cases h : splitOnCh ':' g.toList with
    | nil => rfl
    | cons a as =>
      cases as with
      | nil => rfl
      | cons b bs =>
        cases bs with
        | nil =>
          rw [h] at hg
          simp at hg
        | cons c cs => rfl

theorem headRef_parse_amended_witness :
    parseHeadRef (String.mk (("ref: refs/heads/").toList ++ ("main").toList)) =
      .ok (String.mk ("main").toList) ∧
    parseHeadRef "no colons here" = .error "could not split the .git/HEAD file" :=
  ⟨headRef_parse_amended.1 ("main").toList (by decide),
    headRef_parse_amended.2 "no colons here" (by decide)⟩

end Chainparse
